import Mathlib

/-!
Verification of the Routh-Hurwitz array construction
(`routh_hurwitz_symbolic` in
`src/Classical_Control_System/Stability_Analysis/routh_hurwitz_criterion.ipynb`).

The Python function works over sympy expressions in the single symbol `ε`
(introduced by the zero-pivot substitution).  Every value the function
manipulates is a rational function of `ε` with exact rational coefficients,
so the shallow embedding represents each table entry as a pair of
coefficient-list polynomials over `ℚ` (numerator, denominator).  sympy's
`simplify` only rewrites an expression to an equal one, and its structural
test `expr == 0` agrees with value equality on simplified rational
functions, so zero tests are embedded as "numerator is the zero polynomial"
(the development also proves that every denominator the code produces is a
non-zero polynomial, so this matches value equality).
-/

namespace RouthHurwitz

/-- Polynomials over ℚ in the placeholder symbol ε, as coefficient lists:
index `k` holds the coefficient of `ε^k`. -/
abbrev Poly := List ℚ

namespace Poly

/-- The zero test: every listed coefficient is zero. -/
def isZero (p : Poly) : Bool := p.all (fun a => a = 0)

/-- Coefficientwise sum (the shorter list is padded with zeros). -/
def add : Poly → Poly → Poly
  | [], q => q
  | p, [] => p
  | a :: p, b :: q => (a + b) :: add p q

/-- Coefficientwise negation. -/
def neg (p : Poly) : Poly := p.map (fun a => -a)

/-- Product of coefficient lists. -/
def mul : Poly → Poly → Poly
  | [], _ => []
  | a :: p, q => add (q.map (fun x => a * x)) ((0 : ℚ) :: mul p q)

/-- Evaluation at a rational point (Horner form). -/
def evalAt (x : ℚ) : Poly → ℚ
  | [] => 0
  | a :: p => a + x * evalAt x p

/-- Semantics: the Mathlib polynomial a coefficient list denotes
(proof-side only). -/
noncomputable def toP : Poly → Polynomial ℚ
  | [] => 0
  | a :: p => Polynomial.C a + Polynomial.X * toP p

end Poly

/-- A rational function of ε: `num / den`, not necessarily reduced.  The
code only ever divides by values it has checked (or arranged) to be
non-zero, so every denominator it builds is a non-zero polynomial. -/
structure RF where
  num : Poly
  den : Poly
deriving Repr, DecidableEq

instance : Inhabited RF := ⟨⟨[], [1]⟩⟩

/-- The constant 0. -/
def rfZero : RF := ⟨[], [1]⟩

/-- A rational constant. -/
def rfOfRat (q : ℚ) : RF := ⟨[q], [1]⟩

/-- The placeholder ε substituted for a zero pivot
(`eps = Symbol('ε')` in the source). -/
def epsRF : RF := ⟨[0, 1], [1]⟩

/-- Sum of rational functions (cross multiplication). -/
def rfAdd (f g : RF) : RF := ⟨Poly.add (f.num.mul g.den) (g.num.mul f.den), f.den.mul g.den⟩

/-- Negation. -/
def rfNeg (f : RF) : RF := ⟨f.num.neg, f.den⟩

/-- Difference. -/
def rfSub (f g : RF) : RF := rfAdd f (rfNeg g)

/-- Product. -/
def rfMul (f g : RF) : RF := ⟨f.num.mul g.num, f.den.mul g.den⟩

/-- Quotient. -/
def rfDiv (f g : RF) : RF := ⟨f.num.mul g.den, f.den.mul g.num⟩

/-- The zero test the code applies (sympy `expr == 0` after `simplify`):
the numerator is the zero polynomial. -/
def rfIsZero (f : RF) : Bool := f.num.isZero

/-- Evaluation at a rational point, used to model
`val.subs(eps, 1e-6)` on a simplified rational function of ε. -/
def rfEval (x : ℚ) (f : RF) : ℚ := f.num.evalAt x / f.den.evalAt x

/-- Column count: `cols = (n + 1) // 2`, which is `⌈n / 2⌉`. -/
def cols (n : ℕ) : ℕ := (n + 1) / 2

/-- The even-offset elements `l[0], l[2], …` (Python `coeffs[::2]`). -/
def evens : List ℚ → List ℚ
  | [] => []
  | [a] => [a]
  | a :: _ :: t => a :: evens t

/-- The odd-offset elements `l[1], l[3], …` (Python `coeffs[1::2]`). -/
def odds (l : List ℚ) : List ℚ := evens l.tail

/-- Row 0: even-offset coefficients, right-padded with zeros to width `c`
(`routh[0] = coeffs[::2] + [0]*(cols - len(coeffs[::2]))`). -/
def row0 (cs : List ℚ) : List RF :=
  (evens cs).map rfOfRat ++ List.replicate (cols cs.length - (evens cs).length) rfZero

/-- Row 1: odd-offset coefficients, right-padded with zeros to width `c`. -/
def row1 (cs : List ℚ) : List RF :=
  (odds cs).map rfOfRat ++ List.replicate (cols cs.length - (odds cs).length) rfZero

/-- One entry of a computed row: with `a = routh[i-2][0]`,
`b = routh[i-2][j+1]`, `c = routh[i-1][0]`, `d = routh[i-1][j+1]`, the code
replaces a zero pivot `c` by ε and stores `((c*b) - (a*d)) / c`. -/
def rowEntry (p2 p1 : List RF) (j : ℕ) : RF :=
  let a := p2.headD rfZero
  let b := p2.getD (j + 1) rfZero
  let c0 := p1.headD rfZero
  let d := p1.getD (j + 1) rfZero
  let piv := if rfIsZero c0 then epsRF else c0
  rfDiv (rfSub (rfMul piv b) (rfMul a d)) piv

/-- A computed row before the row-of-zeros check: entries for
`j = 0 .. c-2`, with the last cell left at its initial 0. -/
def computeRow (p2 p1 : List RF) (c : ℕ) : List RF :=
  (List.range (c - 1)).map (rowEntry p2 p1) ++ [rfZero]

/-- The auxiliary-polynomial replacement row:
`aux_poly = [prev_row[k] * (order - 2*k) for k in range(len(prev_row))]`,
right-padded with zeros to width `c`. -/
def auxRow (p1 : List RF) (order : ℤ) (c : ℕ) : List RF :=
  (p1.enum.map (fun kp => rfMul kp.2 (rfOfRat ((order - 2 * (kp.1 : ℤ) : ℤ) : ℚ))))
    ++ List.replicate (c - p1.length) rfZero

/-- Row `i` as finally stored: the computed row, replaced by the
auxiliary-polynomial row when every computed entry is zero
(`if all(r == 0 for r in routh[i])`, with `order = n - i`). -/
def nextRow (n c i : ℕ) (p2 p1 : List RF) : List RF :=
  let r := computeRow p2 p1 c
  if r.all rfIsZero then auxRow p1 ((n : ℤ) - (i : ℤ)) c else r

/-- Rows `i, i+1, …` (`fuel` of them), carrying the two previous rows. -/
def fillAux (n c : ℕ) : ℕ → ℕ → List RF → List RF → List (List RF)
  | 0, _, _, _ => []
  | fuel + 1, i, p2, p1 =>
    let r := nextRow n c i p2 p1
    r :: fillAux n c fuel (i + 1) p1 r

/-- The full Routh array of a coefficient list (meaningful for
`cs.length ≥ 2`, the inputs on which the Python code reaches this point). -/
def routhMatrix (cs : List ℚ) : List (List RF) :=
  row0 cs :: row1 cs ::
    fillAux cs.length (cols cs.length) (cs.length - 2) 2 (row0 cs) (row1 cs)

/-- `int(sign(x))` of a rational value. -/
def ratSign (q : ℚ) : Int := if q < 0 then -1 else if q = 0 then 0 else 1

/-- The value substituted for ε during sign evaluation: the source runs
`val.subs(eps, 1e-6)` and only then a (now vacuous) limit `eps → 0⁺`. -/
def epsVal : ℚ := 1 / 1000000

/-- `first_col_eval`: the first entry of every row, with ε replaced by
`10⁻⁶`. -/
def firstColEval (M : List (List RF)) : List ℚ :=
  M.map (fun r => rfEval epsVal (r.headD rfZero))

/-- `signs = [int(sign(x)) for x in first_col_eval if x != 0]`. -/
def signsList (M : List (List RF)) : List Int :=
  ((firstColEval M).filter (fun x => x ≠ 0)).map ratSign

/-- `sum(signs[i] != signs[i+1] for i in range(len(signs)-1))`. -/
def signChanges : List Int → ℕ
  | [] => 0
  | [_] => 0
  | a :: b :: t => (if a ≠ b then 1 else 0) + signChanges (b :: t)

/-- How a call can fail.  The source performs no validation; the only
failure is the Python `IndexError` from `routh[0] = …` (empty input) or
`routh[1] = …` (single-coefficient input), since the table has only
`n` rows. -/
inductive BuildError
  | indexError
deriving Repr, DecidableEq

/-- What a successful call returns: the Routh array and the sign-change
count. -/
structure BuildResult where
  matrix : List (List RF)
  unstableCount : ℕ
deriving Repr, DecidableEq

/-- The whole function `routh_hurwitz_symbolic`. -/
def build (cs : List ℚ) : Except BuildError BuildResult :=
  if cs.length < 2 then .error .indexError
  else
    let M := routhMatrix cs
    .ok ⟨M, signChanges (signsList M)⟩

/-- The returned count, when the call succeeds. -/
def unstableCountOf (cs : List ℚ) : Option ℕ :=
  (build cs).toOption.map (fun r => r.unstableCount)

/-- The polynomial the coefficient list denotes, on ℂ
(`cs[0]·z^(n-1) + … + cs[n-1]`, by Horner); proof-side semantics used to
talk about the roots of the characteristic polynomial. -/
noncomputable def polyEvalC (cs : List ℚ) (z : ℂ) : ℂ :=
  cs.foldl (fun acc (a : ℚ) => acc * z + (a : ℂ)) 0

/-- Lowest non-zero coefficient of a coefficient list (0 when none). -/
def lowCoeff : Poly → ℚ
  | [] => 0
  | a :: p => if a = 0 then lowCoeff p else a

/-- Modelled from the spec: the sign of a rational function of ε in the
limit ε → 0⁺ (the spec's "resolving the small-positive placeholder to the
limiting sign as it shrinks toward zero"); the sign of
`(a·ε^i + …)/(b·ε^j + …)` for small ε > 0 is the sign of `a·b`. -/
def specLimitSign (f : RF) : Int := ratSign (lowCoeff f.num * lowCoeff f.den)

/-- Modelled from the spec: the sign-change count of §4.1 step 5, with each
first-column entry resolved in the limit ε → 0⁺ and exactly-zero entries
dropped. -/
def specLimitCount (M : List (List RF)) : ℕ :=
  signChanges ((M.map (fun r => specLimitSign (r.headD rfZero))).filter (fun s => s ≠ 0))

/-- A well-formed row of the array: width `c`, and every entry's denominator
is a non-zero polynomial of ε (so the entry is a well-defined rational
function). -/
def rowOk (c : ℕ) (r : List RF) : Prop :=
  r.length = c ∧ ∀ e ∈ r, e.den.toP ≠ 0

/-! ### Semantics of coefficient lists -/

theorem Poly.toP_add (p q : Poly) : (Poly.add p q).toP = p.toP + q.toP := by
  induction p generalizing q with
  | nil => cases q <;> simp [Poly.add, Poly.toP]
  | cons a p ih =>
    cases q with
    | nil => simp [Poly.add, Poly.toP]
    | cons b q => simp [Poly.add, Poly.toP, ih]; ring

theorem Poly.toP_neg (p : Poly) : p.neg.toP = -p.toP := by
  induction p with
  | nil => simp [Poly.neg, Poly.toP]
  | cons a p ih => simp [Poly.neg, Poly.toP] at ih ⊢; rw [ih]; ring

theorem Poly.toP_smul (a : ℚ) (q : Poly) :
    Poly.toP (q.map (fun x => a * x)) = Polynomial.C a * q.toP := by
  induction q with
  | nil => simp [Poly.toP]
  | cons b q ih => simp [Poly.toP, ih]; ring

theorem Poly.toP_mul (p q : Poly) : (Poly.mul p q).toP = p.toP * q.toP := by
  induction p with
  | nil => simp [Poly.mul, Poly.toP]
  | cons a p ih =>
    simp only [Poly.mul, Poly.toP_add, Poly.toP, Poly.toP_smul, ih, map_zero]
    ring

theorem Poly.isZero_iff (p : Poly) : p.isZero = true ↔ p.toP = 0 := by
  induction p with
  | nil => simp [Poly.isZero, Poly.toP]
  | cons a p ih =>
    simp only [Poly.isZero, List.all_cons, Bool.and_eq_true, decide_eq_true_eq,
      Poly.toP] at ih ⊢
    constructor
    · rintro ⟨ha, hp⟩
      simp [ha, ih.mp hp]
    · intro h
      have ha : a = 0 := by
        have := congrArg (fun q => Polynomial.coeff q 0) h
        simpa using this
      refine ⟨ha, ih.mpr ?_⟩
      rw [ha] at h
      simp only [map_zero, zero_add] at h
      rcases mul_eq_zero.mp h with hX | hp
      · exact absurd hX Polynomial.X_ne_zero
      · exact hp

theorem Poly.isZero_false_iff (p : Poly) : p.isZero = false ↔ p.toP ≠ 0 := by
  rw [ne_eq, ← Poly.isZero_iff]
  cases p.isZero <;> simp

theorem Poly.evalAt_of_isZero (x : ℚ) (p : Poly) (h : p.isZero = true) :
    p.evalAt x = 0 := by
  induction p with
  | nil => simp [Poly.evalAt]
  | cons a p ih =>
    simp only [Poly.isZero, List.all_cons, Bool.and_eq_true, decide_eq_true_eq] at h
    simp [Poly.evalAt, h.1, ih h.2]

/-! ### Generic list access helpers -/

theorem getD_mem_or {α : Type} (l : List α) (i : ℕ) (d : α) :
    l.getD i d ∈ l ∨ l.getD i d = d := by
  induction l generalizing i with
  | nil => simp
  | cons a t ih =>
    cases i with
    | zero => simp
    | succ i =>
      simp only [List.getD_cons_succ]
      rcases ih i with h | h
      · exact Or.inl (List.mem_cons_of_mem _ h)
      · exact Or.inr h

theorem headD_mem_or {α : Type} (l : List α) (d : α) :
    l.headD d ∈ l ∨ l.headD d = d := by
  cases l <;> simp

/-! ### Shape of the array -/

theorem fillAux_length (n c : ℕ) (fuel i : ℕ) (p2 p1 : List RF) :
    (fillAux n c fuel i p2 p1).length = fuel := by
  induction fuel generalizing i p2 p1 with
  | zero => rfl
  | succ fuel ih => simp [fillAux, ih]

theorem routhMatrix_length (cs : List ℚ) (h : 2 ≤ cs.length) :
    (routhMatrix cs).length = cs.length := by
  simp only [routhMatrix, List.length_cons, fillAux_length]
  omega

/-- The recurrence the filled rows satisfy: past the first two rows, each
stored row is `nextRow` of the two rows before it. -/
theorem fillAux_chain (n c : ℕ) (fuel : ℕ) :
    ∀ (i : ℕ) (p2 p1 : List RF) (k : ℕ), k < fuel →
      (p2 :: p1 :: fillAux n c fuel i p2 p1).getD (k + 2) [] =
        nextRow n c (i + k) ((p2 :: p1 :: fillAux n c fuel i p2 p1).getD k [])
          ((p2 :: p1 :: fillAux n c fuel i p2 p1).getD (k + 1) []) := by
  induction fuel with
  | zero => intro i p2 p1 k hk; omega
  | succ fuel ih =>
    intro i p2 p1 k hk
    cases k with
    | zero => simp [fillAux]
    | succ k =>
      have h1 : (p2 :: p1 :: fillAux n c (fuel + 1) i p2 p1).getD (k + 3) [] =
          (p1 :: nextRow n c i p2 p1 ::
            fillAux n c fuel (i + 1) p1 (nextRow n c i p2 p1)).getD (k + 2) [] := by
        simp [fillAux]
      have h2 := ih (i + 1) p1 (nextRow n c i p2 p1) k (by omega)
      rw [h1, h2]
      have e1 : i + 1 + k = i + (k + 1) := by omega
      have e2 : (p1 :: nextRow n c i p2 p1 ::
          fillAux n c fuel (i + 1) p1 (nextRow n c i p2 p1)).getD k [] =
          (p2 :: p1 :: fillAux n c (fuel + 1) i p2 p1).getD (k + 1) [] := by
        simp [fillAux]
      have e3 : (p1 :: nextRow n c i p2 p1 ::
          fillAux n c fuel (i + 1) p1 (nextRow n c i p2 p1)).getD (k + 1) [] =
          (p2 :: p1 :: fillAux n c (fuel + 1) i p2 p1).getD (k + 2) [] := by
        simp [fillAux]
      rw [e1, e2, e3]

/-- The stored row `i` (for `2 ≤ i < n`) is `nextRow` of rows `i-2`, `i-1`. -/
theorem routhMatrix_getD (cs : List ℚ) (i : ℕ) (h2 : 2 ≤ i) (hn : i < cs.length) :
    (routhMatrix cs).getD i [] =
      nextRow cs.length (cols cs.length) i
        ((routhMatrix cs).getD (i - 2) []) ((routhMatrix cs).getD (i - 1) []) := by
  have hchain := fillAux_chain cs.length (cols cs.length) (cs.length - 2) 2
    (row0 cs) (row1 cs) (i - 2) (by omega)
  have e0 : i - 2 + 2 = i := by omega
  have e1 : i - 2 + 1 = i - 1 := by omega
  have e2 : 2 + (i - 2) = i := by omega
  rw [e0, e1, e2] at hchain
  exact hchain

/-! ### Access into the first two rows -/

theorem evens_length : ∀ l : List ℚ, (evens l).length = (l.length + 1) / 2
  | [] => rfl
  | [_] => by simp [evens]
  | _ :: _ :: t => by
    simp only [evens, List.length_cons, evens_length t]
    omega

theorem odds_length (l : List ℚ) : (odds l).length = l.length / 2 := by
  cases l with
  | nil => rfl
  | cons a t =>
    simp only [odds, List.tail_cons, evens_length t, List.length_cons]

theorem evens_getElem? : ∀ (l : List ℚ) (j : ℕ), (evens l)[j]? = l[2 * j]?
  | [], j => by simp [evens]
  | [a], 0 => by simp [evens]
  | [a], j + 1 => by
    have e : 2 * (j + 1) = 2 * j + 1 + 1 := by omega
    simp [evens, e]
  | a :: b :: t, 0 => by simp [evens]
  | a :: b :: t, j + 1 => by
    have e : 2 * (j + 1) = 2 * j + 1 + 1 := by omega
    rw [e]
    simpa [evens] using evens_getElem? t j

theorem odds_getElem? (l : List ℚ) (j : ℕ) : (odds l)[j]? = l[2 * j + 1]? := by
  cases l with
  | nil => simp [odds, evens]
  | cons a t => simpa [odds] using evens_getElem? t j

theorem cols_pos (n : ℕ) (h : 1 ≤ n) : 1 ≤ cols n := by
  simp only [cols]; omega

theorem row0_length (cs : List ℚ) : (row0 cs).length = cols cs.length := by
  simp only [row0, List.length_append, List.length_map, List.length_replicate,
    evens_length, cols]
  omega

theorem row1_length (cs : List ℚ) : (row1 cs).length = cols cs.length := by
  have h : cs.length / 2 ≤ cols cs.length := by simp only [cols]; omega
  simp only [row1, List.length_append, List.length_map, List.length_replicate,
    odds_length]
  omega

/-- Row 0 holds the even-offset coefficients (no padding is ever reached:
`j < ⌈n/2⌉` forces `2j < n`). -/
theorem row0_getD (cs : List ℚ) (j : ℕ) (hj : j < cols cs.length) :
    (row0 cs).getD j rfZero = rfOfRat (cs.getD (2 * j) 0) := by
  have h2j : 2 * j < cs.length := by simp only [cols] at hj; omega
  have hlen : j < ((evens cs).map rfOfRat).length := by
    simp only [List.length_map, evens_length, cols] at hj ⊢; omega
  rw [List.getD_eq_getElem?_getD, row0, List.getElem?_append_left hlen,
    List.getElem?_map, evens_getElem?, List.getD_eq_getElem?_getD]
  have h : cs[2 * j]? = some cs[2 * j] := List.getElem?_eq_getElem h2j
  simp [h]

/-- Row 1 holds the odd-offset coefficients, right-padded with zeros. -/
theorem row1_getD (cs : List ℚ) (j : ℕ) (hj : j < cols cs.length) :
    (row1 cs).getD j rfZero =
      if 2 * j + 1 < cs.length then rfOfRat (cs.getD (2 * j + 1) 0) else rfZero := by
  by_cases h : 2 * j + 1 < cs.length
  · have hlen : j < ((odds cs).map rfOfRat).length := by
      simp only [List.length_map, odds_length]; omega
    rw [List.getD_eq_getElem?_getD, row1, List.getElem?_append_left hlen,
      List.getElem?_map, odds_getElem?, if_pos h, List.getD_eq_getElem?_getD]
    have h2 : cs[2 * j + 1]? = some cs[2 * j + 1] := List.getElem?_eq_getElem h
    simp [h2]
  · have hlen : ((odds cs).map rfOfRat).length ≤ j := by
      simp only [List.length_map, odds_length]; omega
    rw [List.getD_eq_getElem?_getD, row1, List.getElem?_append_right hlen, if_neg h]
    have hrep : j - ((odds cs).map rfOfRat).length <
        (List.replicate (cols cs.length - (odds cs).length) rfZero).length := by
      simp only [List.length_replicate, List.length_map, odds_length, cols] at hlen hj ⊢
      omega
    rw [List.getElem?_eq_getElem hrep]
    simp [List.getElem_replicate]

/-! ### Computed rows -/

theorem computeRow_length (p2 p1 : List RF) (c : ℕ) (hc : 1 ≤ c) :
    (computeRow p2 p1 c).length = c := by
  simp only [computeRow, List.length_append, List.length_map, List.length_range,
    List.length_cons, List.length_nil]
  omega

theorem computeRow_getD (p2 p1 : List RF) (c j : ℕ) (hj : j < c - 1) :
    (computeRow p2 p1 c).getD j rfZero = rowEntry p2 p1 j := by
  have hlen : j < ((List.range (c - 1)).map (rowEntry p2 p1)).length := by
    simp only [List.length_map, List.length_range]; omega
  rw [List.getD_eq_getElem?_getD, computeRow, List.getElem?_append_left hlen,
    List.getElem?_map, List.getElem?_range hj]
  rfl

theorem auxRow_length (p1 : List RF) (o : ℤ) (c : ℕ) (h : p1.length ≤ c) :
    (auxRow p1 o c).length = c := by
  simp only [auxRow, List.length_append, List.length_map, List.enum_length,
    List.length_replicate]
  omega

/-! ### Every denominator the construction produces is non-zero -/

theorem toP_one_den : Poly.toP [1] = 1 := by
  simp [Poly.toP]

theorem rfZero_den (x : RF) (h : x = rfZero) : x.den.toP ≠ 0 := by
  subst h; simp [rfZero, toP_one_den]

theorem epsRF_num_toP : epsRF.num.toP = Polynomial.X := by
  simp [epsRF, Poly.toP]

theorem rowEntry_den (p2 p1 : List RF) (j : ℕ)
    (hp2 : ∀ e ∈ p2, e.den.toP ≠ 0) (hp1 : ∀ e ∈ p1, e.den.toP ≠ 0) :
    (rowEntry p2 p1 j).den.toP ≠ 0 := by
  have hget : ∀ (l : List RF) (i : ℕ), (∀ e ∈ l, e.den.toP ≠ 0) →
      (l.getD i rfZero).den.toP ≠ 0 := by
    intro l i hl
    rcases getD_mem_or l i rfZero with h | h
    · exact hl _ h
    · exact rfZero_den _ h
  have hhead : ∀ (l : List RF), (∀ e ∈ l, e.den.toP ≠ 0) →
      (l.headD rfZero).den.toP ≠ 0 := by
    intro l hl
    rcases headD_mem_or l rfZero with h | h
    · exact hl _ h
    · exact rfZero_den _ h
  have ha := hhead p2 hp2
  have hb := hget p2 (j + 1) hp2
  have hc0 := hhead p1 hp1
  have hd := hget p1 (j + 1) hp1
  simp only [rowEntry, rfDiv, rfSub, rfAdd, rfNeg, rfMul, Poly.toP_mul]
  have hXne : Poly.toP [0, 1] ≠ 0 := by
    have hX : Poly.toP [0, 1] = (Polynomial.X : Polynomial ℚ) := by simp [Poly.toP]
    rw [hX]
    exact Polynomial.X_ne_zero
  by_cases hz : rfIsZero (p1.headD rfZero)
  · simp only [hz, if_true, epsRF, toP_one_den]
    refine mul_ne_zero (mul_ne_zero (mul_ne_zero ?_ hb) (mul_ne_zero ha hd)) hXne
    simp [Poly.toP]
  · simp only [hz, if_false]
    refine mul_ne_zero (mul_ne_zero (mul_ne_zero hc0 hb) (mul_ne_zero ha hd)) ?_
    exact (Poly.isZero_false_iff _).mp (by simpa [rfIsZero] using hz)

theorem computeRow_ok (p2 p1 : List RF) (c : ℕ) (hc : 1 ≤ c)
    (hp2 : ∀ e ∈ p2, e.den.toP ≠ 0) (hp1 : ∀ e ∈ p1, e.den.toP ≠ 0) :
    rowOk c (computeRow p2 p1 c) := by
  refine ⟨computeRow_length p2 p1 c hc, ?_⟩
  intro e he
  simp only [computeRow, List.mem_append, List.mem_map, List.mem_range,
    List.mem_singleton] at he
  rcases he with ⟨j, _, rfl⟩ | rfl
  · exact rowEntry_den p2 p1 j hp2 hp1
  · exact rfZero_den _ rfl

theorem auxRow_ok (p1 : List RF) (o : ℤ) (c : ℕ) (hlen : p1.length = c)
    (hp1 : ∀ e ∈ p1, e.den.toP ≠ 0) :
    rowOk c (auxRow p1 o c) := by
  refine ⟨auxRow_length p1 o c (by omega), ?_⟩
  intro e he
  simp only [auxRow, List.mem_append, List.mem_map, List.mem_replicate] at he
  rcases he with ⟨kp, hkp, rfl⟩ | ⟨-, rfl⟩
  · have hmem : kp.2 ∈ p1 := by
      have := List.mem_map_of_mem Prod.snd hkp
      rwa [List.enum_map_snd] at this
    simp only [rfMul, rfOfRat, Poly.toP_mul, toP_one_den, mul_one]
    exact hp1 _ hmem
  · exact rfZero_den _ rfl

theorem nextRow_ok (n c i : ℕ) (p2 p1 : List RF) (hc : 1 ≤ c)
    (hp2 : ∀ e ∈ p2, e.den.toP ≠ 0) (hp1 : rowOk c p1) :
    rowOk c (nextRow n c i p2 p1) := by
  rw [nextRow]
  by_cases hz : (computeRow p2 p1 c).all rfIsZero
  · simp only [hz, if_true]
    exact auxRow_ok p1 _ c hp1.1 hp1.2
  · simp only [hz, if_false]
    exact computeRow_ok p2 p1 c hc hp2 hp1.2

theorem fillAux_ok (n c : ℕ) (hc : 1 ≤ c) :
    ∀ (fuel i : ℕ) (p2 p1 : List RF), rowOk c p2 → rowOk c p1 →
      ∀ r ∈ fillAux n c fuel i p2 p1, rowOk c r := by
  intro fuel
  induction fuel with
  | zero => intro i p2 p1 _ _ r hr; simp [fillAux] at hr
  | succ fuel ih =>
    intro i p2 p1 hp2 hp1 r hr
    simp only [fillAux, List.mem_cons] at hr
    have hnext : rowOk c (nextRow n c i p2 p1) := nextRow_ok n c i p2 p1 hc hp2.2 hp1
    rcases hr with rfl | hr
    · exact hnext
    · exact ih (i + 1) p1 (nextRow n c i p2 p1) hp1 hnext r hr

theorem row0_ok (cs : List ℚ) : rowOk (cols cs.length) (row0 cs) := by
  refine ⟨row0_length cs, ?_⟩
  intro e he
  simp only [row0, List.mem_append, List.mem_map, List.mem_replicate] at he
  rcases he with ⟨q, -, rfl⟩ | ⟨-, rfl⟩
  · simp [rfOfRat, toP_one_den]
  · exact rfZero_den _ rfl

theorem row1_ok (cs : List ℚ) : rowOk (cols cs.length) (row1 cs) := by
  refine ⟨row1_length cs, ?_⟩
  intro e he
  simp only [row1, List.mem_append, List.mem_map, List.mem_replicate] at he
  rcases he with ⟨q, -, rfl⟩ | ⟨-, rfl⟩
  · simp [rfOfRat, toP_one_den]
  · exact rfZero_den _ rfl

/-- Every row of the returned array has width `⌈n/2⌉` and only well-defined
entries. -/
theorem routhMatrix_ok (cs : List ℚ) (h : 2 ≤ cs.length) :
    ∀ r ∈ routhMatrix cs, rowOk (cols cs.length) r := by
  have hc : 1 ≤ cols cs.length := cols_pos cs.length (by omega)
  intro r hr
  simp only [routhMatrix, List.mem_cons] at hr
  rcases hr with rfl | rfl | hr
  · exact row0_ok cs
  · exact row1_ok cs
  · exact fillAux_ok cs.length (cols cs.length) hc _ 2 (row0 cs) (row1 cs)
      (row0_ok cs) (row1_ok cs) r hr

/-- The column count is the ceiling of `n / 2`. -/
theorem cols_eq_ceil (n : ℕ) : (cols n : ℤ) = ⌈(n : ℚ) / 2⌉ := by
  rcases Nat.even_or_odd n with ⟨m, hm⟩ | ⟨m, hm⟩
  · subst hm
    have h1 : ((m + m : ℕ) : ℚ) / 2 = (m : ℚ) := by push_cast; ring
    have h2 : cols (m + m) = m := by simp only [cols]; omega
    rw [h1, h2, Int.ceil_natCast]
  · subst hm
    have h2 : cols (2 * m + 1) = m + 1 := by simp only [cols]; omega
    rw [h2]
    have h1 : ((2 * m + 1 : ℕ) : ℚ) / 2 = (m : ℚ) + 1 / 2 := by push_cast; ring
    rw [h1]
    have : (⌈(m : ℚ) + 1 / 2⌉ : ℤ) = m + ⌈(1 / 2 : ℚ)⌉ := by
      rw [add_comm, Int.ceil_add_nat, add_comm]
    rw [this]
    have hhalf : (⌈(1 / 2 : ℚ)⌉ : ℤ) = 1 := by
      rw [Int.ceil_eq_iff]
      norm_num
    rw [hhalf]
    push_cast
    ring

/-! ### The claims -/

/-- C5: for every input of length `n ≥ 2` (shorter inputs abort before any
row is stored), row 0 of the array holds the even-offset coefficients and
row 1 the odd-offset coefficients, each right-padded with zeros to width
`c = ⌈n/2⌉` (row 0 needs no padding: `j < ⌈n/2⌉` forces `2j < n`). -/
theorem routh_c5 (cs : List ℚ) (j : ℕ) (_h : 2 ≤ cs.length) (hj : j < cols cs.length) :
    (cols cs.length : ℤ) = ⌈(cs.length : ℚ) / 2⌉ ∧
    ((routhMatrix cs).getD 0 []).getD j rfZero = rfOfRat (cs.getD (2 * j) 0) ∧
    ((routhMatrix cs).getD 1 []).getD j rfZero =
      (if 2 * j + 1 < cs.length then rfOfRat (cs.getD (2 * j + 1) 0) else rfZero) := by
  refine ⟨cols_eq_ceil cs.length, ?_, ?_⟩
  · have h0 : (routhMatrix cs).getD 0 [] = row0 cs := rfl
    rw [h0]
    exact row0_getD cs j hj
  · have h1 : (routhMatrix cs).getD 1 [] = row1 cs := rfl
    rw [h1]
    exact row1_getD cs j hj

/-- Witness for C5 at `cs = [1, 2, 3, 4, 5]`, `j = 1`: row 0 carries
`cs[2] = 3`, row 1 carries `cs[3] = 4`. -/
theorem routh_c5_w :
    (cols ([1, 2, 3, 4, 5] : List ℚ).length : ℤ) = ⌈(([1, 2, 3, 4, 5] : List ℚ).length : ℚ) / 2⌉ ∧
    ((routhMatrix [1, 2, 3, 4, 5]).getD 0 []).getD 1 rfZero =
      rfOfRat (([1, 2, 3, 4, 5] : List ℚ).getD (2 * 1) 0) ∧
    ((routhMatrix [1, 2, 3, 4, 5]).getD 1 []).getD 1 rfZero =
      (if 2 * 1 + 1 < ([1, 2, 3, 4, 5] : List ℚ).length
        then rfOfRat (([1, 2, 3, 4, 5] : List ℚ).getD (2 * 1 + 1) 0) else rfZero) :=
  routh_c5 [1, 2, 3, 4, 5] 1 (by norm_num) (by norm_num [cols])

/-- C4: whenever the row computed at index `i` (any `2 ≤ i ≤ n-1`) is
entirely zero, the stored row `i` is the auxiliary-polynomial derivative
row `auxRow prev (n - i) c`, whose entry at column `k` is
`prev[k] · (order - 2k)` with `order = n - i`, padded with zeros to width
`c`. -/
theorem routh_c4 (cs : List ℚ) (i : ℕ) (_h : 2 ≤ cs.length) (h2 : 2 ≤ i)
    (hi : i < cs.length)
    (hz : (computeRow ((routhMatrix cs).getD (i - 2) []) ((routhMatrix cs).getD (i - 1) [])
        (cols cs.length)).all rfIsZero = true) :
    (routhMatrix cs).getD i [] =
      auxRow ((routhMatrix cs).getD (i - 1) []) ((cs.length : ℤ) - (i : ℤ))
        (cols cs.length) := by
  rw [routhMatrix_getD cs i h2 hi]
  simp only [nextRow]
  rw [if_pos hz]

/-- Witness for C4 at `cs = [1, 1, 2, 2]` (`(s+1)(s²+2)`), `i = 2`: the
computed row `[0, 0]` is all zero and is replaced by the auxiliary row. -/
theorem routh_c4_w :
    (routhMatrix [1, 1, 2, 2]).getD 2 [] =
      auxRow ((routhMatrix [1, 1, 2, 2]).getD 1 [])
        ((([1, 1, 2, 2] : List ℚ).length : ℤ) - ((2 : ℕ) : ℤ))
        (cols ([1, 1, 2, 2] : List ℚ).length) :=
  routh_c4 [1, 1, 2, 2] 2 (by norm_num) (by norm_num) (by norm_num)
    (by norm_num [routhMatrix, fillAux, nextRow, computeRow, rowEntry, auxRow, row0, row1,
      evens, odds, cols, rfDiv, rfMul, rfSub, rfAdd, rfNeg, rfZero, rfOfRat, epsRF,
      rfIsZero, Poly.add, Poly.mul, Poly.neg, Poly.isZero, List.range_succ])

/-- C2 corrected: the computed-entry formula
`array[i][j] = (pivot·b - a·d) / pivot` (with ε substituted for a zero
pivot, in exact ℚ(ε) arithmetic) describes the stored entry only when the
computed row `i` is not entirely zero; an all-zero computed row is replaced
by the auxiliary-polynomial row (C4) and then the stored entry differs from
the formula.  This theorem proves the formula for every non-replaced row. -/
theorem routh_c2 (cs : List ℚ) (i j : ℕ) (_h : 2 ≤ cs.length) (h2 : 2 ≤ i)
    (hi : i < cs.length) (hj : j + 1 < cols cs.length)
    (hnz : (computeRow ((routhMatrix cs).getD (i - 2) []) ((routhMatrix cs).getD (i - 1) [])
        (cols cs.length)).all rfIsZero = false) :
    ((routhMatrix cs).getD i []).getD j rfZero =
      rfDiv
        (rfSub
          (rfMul
            (if rfIsZero (((routhMatrix cs).getD (i - 1) []).headD rfZero) then epsRF
              else ((routhMatrix cs).getD (i - 1) []).headD rfZero)
            (((routhMatrix cs).getD (i - 2) []).getD (j + 1) rfZero))
          (rfMul (((routhMatrix cs).getD (i - 2) []).headD rfZero)
            (((routhMatrix cs).getD (i - 1) []).getD (j + 1) rfZero)))
        (if rfIsZero (((routhMatrix cs).getD (i - 1) []).headD rfZero) then epsRF
          else ((routhMatrix cs).getD (i - 1) []).headD rfZero) := by
  rw [routhMatrix_getD cs i h2 hi]
  simp only [nextRow]
  rw [if_neg (by rw [hnz]; exact Bool.false_ne_true)]
  rw [computeRow_getD _ _ _ _ (by omega)]
  simp only [rowEntry]

/-- Witness for C2 at `cs = [1, 2, 3, 4, 5]`, `i = 2`, `j = 0`. -/
theorem routh_c2_w :
    ((routhMatrix [1, 2, 3, 4, 5]).getD 2 []).getD 0 rfZero =
      rfDiv
        (rfSub
          (rfMul
            (if rfIsZero (((routhMatrix [1, 2, 3, 4, 5]).getD (2 - 1) []).headD rfZero)
              then epsRF
              else ((routhMatrix [1, 2, 3, 4, 5]).getD (2 - 1) []).headD rfZero)
            (((routhMatrix [1, 2, 3, 4, 5]).getD (2 - 2) []).getD (0 + 1) rfZero))
          (rfMul (((routhMatrix [1, 2, 3, 4, 5]).getD (2 - 2) []).headD rfZero)
            (((routhMatrix [1, 2, 3, 4, 5]).getD (2 - 1) []).getD (0 + 1) rfZero)))
        (if rfIsZero (((routhMatrix [1, 2, 3, 4, 5]).getD (2 - 1) []).headD rfZero)
          then epsRF
          else ((routhMatrix [1, 2, 3, 4, 5]).getD (2 - 1) []).headD rfZero) :=
  routh_c2 [1, 2, 3, 4, 5] 2 0 (by norm_num) (by norm_num) (by norm_num)
    (by norm_num [cols])
    (by norm_num [routhMatrix, fillAux, nextRow, computeRow, rowEntry, auxRow, row0, row1,
      evens, odds, cols, rfDiv, rfMul, rfSub, rfAdd, rfNeg, rfZero, rfOfRat, epsRF,
      rfIsZero, Poly.add, Poly.mul, Poly.neg, Poly.isZero, List.range_succ])

/-- Counterexample for C2 as stated: for `cs = [1, 1, 2, 2]`, `i = 2`,
`j = 0`, the computed row is all zero and gets replaced, so the stored
entry (which evaluates to 2) differs from the step-3 formula (which
evaluates to 0). -/
theorem routh_c2_cex :
    rfEval epsVal (((routhMatrix [1, 1, 2, 2]).getD 2 []).getD 0 rfZero) = 2 ∧
    rfEval epsVal
      (rfDiv
        (rfSub
          (rfMul
            (if rfIsZero (((routhMatrix [1, 1, 2, 2]).getD (2 - 1) []).headD rfZero)
              then epsRF
              else ((routhMatrix [1, 1, 2, 2]).getD (2 - 1) []).headD rfZero)
            (((routhMatrix [1, 1, 2, 2]).getD (2 - 2) []).getD (0 + 1) rfZero))
          (rfMul (((routhMatrix [1, 1, 2, 2]).getD (2 - 2) []).headD rfZero)
            (((routhMatrix [1, 1, 2, 2]).getD (2 - 1) []).getD (0 + 1) rfZero)))
        (if rfIsZero (((routhMatrix [1, 1, 2, 2]).getD (2 - 1) []).headD rfZero)
          then epsRF
          else ((routhMatrix [1, 1, 2, 2]).getD (2 - 1) []).headD rfZero)) = 0 ∧
    (2 : ℚ) ≠ 0 := by
  norm_num [routhMatrix, fillAux, nextRow, computeRow, rowEntry, auxRow, row0, row1,
    evens, odds, cols, rfDiv, rfMul, rfSub, rfAdd, rfNeg, rfZero, rfOfRat, epsRF,
    rfIsZero, rfEval, epsVal, Poly.add, Poly.mul, Poly.neg, Poly.isZero, Poly.evalAt,
    List.range_succ]

/-- C8: for every input reaching row construction and every computed row,
the divisor actually used in step 3 — the pivot after the zero-pivot
substitution — is a non-zero rational function of ε (non-zero numerator
and denominator), and every entry of the returned array has a non-zero
denominator: the division is never by zero and the array stays fully
defined. -/
theorem routh_c8 (cs : List ℚ) (i : ℕ) (h : 2 ≤ cs.length) (_h2 : 2 ≤ i)
    (_hi : i < cs.length) :
    ((if rfIsZero (((routhMatrix cs).getD (i - 1) []).headD rfZero) then epsRF
        else ((routhMatrix cs).getD (i - 1) []).headD rfZero).num.toP ≠ 0 ∧
      (if rfIsZero (((routhMatrix cs).getD (i - 1) []).headD rfZero) then epsRF
        else ((routhMatrix cs).getD (i - 1) []).headD rfZero).den.toP ≠ 0) ∧
    ∀ r ∈ routhMatrix cs, ∀ e ∈ r, e.den.toP ≠ 0 := by
  have hXne : Poly.toP [0, 1] ≠ 0 := by
    have hX : Poly.toP [0, 1] = (Polynomial.X : Polynomial ℚ) := by simp [Poly.toP]
    rw [hX]
    exact Polynomial.X_ne_zero
  have hrowden : ∀ r ∈ routhMatrix cs, ∀ e ∈ r, e.den.toP ≠ 0 := by
    intro r hr
    exact (routhMatrix_ok cs h r hr).2
  refine ⟨⟨?_, ?_⟩, hrowden⟩
  · by_cases hz : rfIsZero (((routhMatrix cs).getD (i - 1) []).headD rfZero)
    · rw [if_pos hz]
      exact hXne
    · rw [if_neg hz]
      exact (Poly.isZero_false_iff _).mp (by simpa [rfIsZero] using hz)
  · have hden : (((routhMatrix cs).getD (i - 1) []).headD rfZero).den.toP ≠ 0 := by
      rcases getD_mem_or (routhMatrix cs) (i - 1) [] with hmem | hnil
      · rcases headD_mem_or ((routhMatrix cs).getD (i - 1) []) rfZero with he | he
        · exact hrowden _ hmem _ he
        · exact rfZero_den _ he
      · rw [hnil]
        exact rfZero_den _ rfl
    by_cases hz : rfIsZero (((routhMatrix cs).getD (i - 1) []).headD rfZero)
    · rw [if_pos hz]
      simp [epsRF, toP_one_den]
    · rw [if_neg hz]
      exact hden

/-- Witness for C8 at `cs = [1, 1, 2, 2, 1]`, `i = 3` (a genuinely zero
pivot: `array[2][0] = 0`, so the ε branch is taken). -/
theorem routh_c8_w :
    ((if rfIsZero (((routhMatrix [1, 1, 2, 2, 1]).getD (3 - 1) []).headD rfZero) then epsRF
        else ((routhMatrix [1, 1, 2, 2, 1]).getD (3 - 1) []).headD rfZero).num.toP ≠ 0 ∧
      (if rfIsZero (((routhMatrix [1, 1, 2, 2, 1]).getD (3 - 1) []).headD rfZero) then epsRF
        else ((routhMatrix [1, 1, 2, 2, 1]).getD (3 - 1) []).headD rfZero).den.toP ≠ 0) ∧
    ∀ r ∈ routhMatrix [1, 1, 2, 2, 1], ∀ e ∈ r, e.den.toP ≠ 0 :=
  routh_c8 [1, 1, 2, 2, 1] 3 (by norm_num) (by norm_num) (by norm_num)

/-- C10: when the pivot read while building row `i` is zero, the ε
substitution stays local to that division: the stored first-column entry
`array[i-1][0]` of the returned array is still the zero value (in
particular it is not the ε placeholder), it evaluates to 0 in the
sign-evaluation step, and the evaluated first column filtered of zeros —
the sequence the signs are taken from — is the same with position `i-1`
removed. -/
theorem routh_c10 (cs : List ℚ) (i : ℕ) (h : 2 ≤ cs.length) (h2 : 2 ≤ i)
    (hi : i < cs.length)
    (hz : rfIsZero (((routhMatrix cs).getD (i - 1) []).headD rfZero) = true) :
    ((routhMatrix cs).getD (i - 1) []).headD rfZero ≠ epsRF ∧
    (firstColEval (routhMatrix cs)).getD (i - 1) 0 = 0 ∧
    (firstColEval (routhMatrix cs)).filter (fun x => x ≠ 0) =
      ((firstColEval (routhMatrix cs)).take (i - 1) ++
        (firstColEval (routhMatrix cs)).drop i).filter (fun x => x ≠ 0) := by
  have hlenM : (routhMatrix cs).length = cs.length := routhMatrix_length cs h
  have hi1 : i - 1 < (routhMatrix cs).length := by omega
  have hfc : (firstColEval (routhMatrix cs)).getD (i - 1) 0 =
      rfEval epsVal (((routhMatrix cs).getD (i - 1) []).headD rfZero) := by
    rw [List.getD_eq_getElem?_getD, firstColEval, List.getElem?_map,
      List.getElem?_eq_getElem hi1, List.getD_eq_getElem?_getD,
      List.getElem?_eq_getElem hi1]
    rfl
  have heval : rfEval epsVal (((routhMatrix cs).getD (i - 1) []).headD rfZero) = 0 := by
    rw [rfEval, Poly.evalAt_of_isZero _ _ (by simpa [rfIsZero] using hz), zero_div]
  refine ⟨?_, by rw [hfc, heval], ?_⟩
  · intro heq
    rw [heq] at hz
    simp [rfIsZero, epsRF, Poly.isZero] at hz
  · have hlenfc : (firstColEval (routhMatrix cs)).length = cs.length := by
      simp [firstColEval, hlenM]
    have hi1fc : i - 1 < (firstColEval (routhMatrix cs)).length := by omega
    have hdecomp : firstColEval (routhMatrix cs) =
        (firstColEval (routhMatrix cs)).take (i - 1) ++
          (firstColEval (routhMatrix cs))[i - 1] ::
            (firstColEval (routhMatrix cs)).drop i := by
      conv_lhs => rw [← List.take_append_drop (i - 1) (firstColEval (routhMatrix cs))]
      rw [List.drop_eq_getElem_cons hi1fc]
      have e : i - 1 + 1 = i := by omega
      rw [e]
    have hval0 : (firstColEval (routhMatrix cs))[i - 1] = 0 := by
      have hgd := hfc
      rw [List.getD_eq_getElem?_getD, List.getElem?_eq_getElem hi1fc,
        Option.getD_some] at hgd
      rw [hgd, heval]
    conv_lhs => rw [hdecomp]
    rw [List.filter_append, List.filter_append, List.filter_cons]
    simp [hval0]

/-- Witness for C10 at `cs = [1, 1, 2, 2, 1]`, `i = 3` (the computed entry
`array[2][0]` is exactly zero). -/
theorem routh_c10_w :
    ((routhMatrix [1, 1, 2, 2, 1]).getD (3 - 1) []).headD rfZero ≠ epsRF ∧
    (firstColEval (routhMatrix [1, 1, 2, 2, 1])).getD (3 - 1) 0 = 0 ∧
    (firstColEval (routhMatrix [1, 1, 2, 2, 1])).filter (fun x => x ≠ 0) =
      ((firstColEval (routhMatrix [1, 1, 2, 2, 1])).take (3 - 1) ++
        (firstColEval (routhMatrix [1, 1, 2, 2, 1])).drop 3).filter (fun x => x ≠ 0) :=
  routh_c10 [1, 1, 2, 2, 1] 3 (by norm_num) (by norm_num) (by norm_num)
    (by norm_num [routhMatrix, fillAux, nextRow, computeRow, rowEntry, auxRow, row0, row1,
      evens, odds, cols, rfDiv, rfMul, rfSub, rfAdd, rfNeg, rfZero, rfOfRat, epsRF,
      rfIsZero, Poly.add, Poly.mul, Poly.neg, Poly.isZero, List.range_succ])

/-- Counterexample for C7 as stated: for the single-coefficient input
`[1]` (`n = 1`, non-zero leading coefficient) the call does not return a
table at all — the source crashes assigning `routh[1]` on a one-row
table (an IndexError), which the embedding records as `indexError`. -/
theorem routh_c7_cex : build [(1 : ℚ)] = Except.error BuildError.indexError := rfl

/-- C7 corrected: for every input with at least two coefficients (no
condition on the leading coefficient), the call returns normally with a
table of exactly `n` rows and `⌈n/2⌉` columns and a natural-number
(hence non-negative) count; the single-coefficient case `n = 1` instead
fails with an index error (see the counterexample). -/
theorem routh_c7 (cs : List ℚ) (h : 2 ≤ cs.length) :
    ∃ res, build cs = Except.ok res ∧ res.matrix.length = cs.length ∧
      ∀ r ∈ res.matrix, r.length = cols cs.length := by
  refine ⟨⟨routhMatrix cs, signChanges (signsList (routhMatrix cs))⟩, ?_, ?_, ?_⟩
  · rw [build, if_neg (by omega)]
  · exact routhMatrix_length cs h
  · intro r hr
    exact (routhMatrix_ok cs h r hr).1

/-- Witness for C7 at `cs = [1, -3, 2]`. -/
theorem routh_c7_w :
    ∃ res, build [1, -3, 2] = Except.ok res ∧
      res.matrix.length = ([1, -3, 2] : List ℚ).length ∧
      ∀ r ∈ res.matrix, r.length = cols ([1, -3, 2] : List ℚ).length :=
  routh_c7 [1, -3, 2] (by norm_num)

/-- Counterexample for C6 as stated: the input `[0, 1]` has a zero leading
coefficient, yet the call does not fail — no `InvalidPolynomial` error
exists anywhere in the source, which performs no input validation. -/
theorem routh_c6_cex : (build [(0 : ℚ), 1]).isOk = true := by
  norm_num [build, Except.isOk, Except.toBool]

/-- C6 corrected: the source never raises an `InvalidPolynomial` error and
does not validate the leading coefficient; the only failure is the index
error on inputs with fewer than two coefficients, and the call returns
normally exactly when `n ≥ 2` — in particular a zero leading coefficient
is accepted and processed. -/
theorem routh_c6 (cs : List ℚ) :
    ((build cs).isOk = true ↔ 2 ≤ cs.length) ∧
    (build cs = Except.error BuildError.indexError ↔ cs.length < 2) := by
  by_cases h : cs.length < 2
  · rw [build, if_pos h]
    simp [Except.isOk, Except.toBool]
    omega
  · rw [build, if_neg h]
    simp [Except.isOk, Except.toBool]
    omega

theorem ratSign_pos {q : ℚ} (h : 0 < q) : ratSign q = 1 := by
  simp [ratSign, not_lt.mpr h.le, h.ne']

theorem ratSign_neg {q : ℚ} (h : q < 0) : ratSign q = -1 := by
  simp [ratSign, h]

/-- C9: a degree-1 input `[a0, a1]` with both coefficients non-zero yields
`unstableCount = 0` when the coefficients have the same sign and
`unstableCount = 1` when they have opposite signs. -/
theorem routh_c9 (a0 a1 : ℚ) (h0 : a0 ≠ 0) (h1 : a1 ≠ 0) :
    unstableCountOf [a0, a1] = some (if (0 < a0 ↔ 0 < a1) then 0 else 1) := by
  have hbuild : build [a0, a1] = Except.ok ⟨routhMatrix [a0, a1],
      signChanges (signsList (routhMatrix [a0, a1]))⟩ := by
    rw [build, if_neg (by norm_num)]
  rw [unstableCountOf, hbuild]
  simp only [Except.toOption, Option.map]
  congr 1
  have hM : routhMatrix [a0, a1] = [[rfOfRat a0], [rfOfRat a1]] := by
    norm_num [routhMatrix, row0, row1, evens, odds, cols, fillAux]
  rw [hM]
  have hfc : firstColEval [[rfOfRat a0], [rfOfRat a1]] = [a0, a1] := by
    norm_num [firstColEval, rfEval, rfOfRat, Poly.evalAt, epsVal]
  rw [signsList, hfc]
  have hfil : ([a0, a1].filter (fun x => x ≠ 0)) = [a0, a1] := by
    simp [List.filter_cons, h0, h1]
  rw [hfil]
  by_cases hp0 : 0 < a0 <;> by_cases hp1 : 0 < a1
  · norm_num [ratSign_pos hp0, ratSign_pos hp1, signChanges, hp0, hp1]
  · have hn1 : a1 < 0 := lt_of_le_of_ne (not_lt.mp hp1) h1
    norm_num [ratSign_pos hp0, ratSign_neg hn1, signChanges, hp0, hp1]
  · have hn0 : a0 < 0 := lt_of_le_of_ne (not_lt.mp hp0) h0
    norm_num [ratSign_neg hn0, ratSign_pos hp1, signChanges, hp0, hp1]
  · have hn0 : a0 < 0 := lt_of_le_of_ne (not_lt.mp hp0) h0
    have hn1 : a1 < 0 := lt_of_le_of_ne (not_lt.mp hp1) h1
    norm_num [ratSign_neg hn0, ratSign_neg hn1, signChanges, hp0, hp1]

/-- Witness for C9 at `a0 = 1`, `a1 = -2` (opposite signs, count 1). -/
theorem routh_c9_w :
    unstableCountOf [1, -2] = some (if ((0 : ℚ) < 1 ↔ (0 : ℚ) < -2) then 0 else 1) :=
  routh_c9 1 (-2) (by norm_num) (by norm_num)

/-- Counterexample for C3 as stated: the sign of a first-column entry is
not resolved in the limit ε → 0⁺ — the source substitutes the fixed value
`1e-6` for ε before taking the (then vacuous) limit.  For
`[1, 1, 2, 2, 10⁻⁷]` the entry `2 - 10⁻⁷/ε` is negative for every small
enough ε > 0 (limiting sign -1, giving 2 sign changes), but at ε = 10⁻⁶ it
equals 19/10 > 0, so the code returns 0. -/
theorem routh_c3_cex :
    unstableCountOf [1, 1, 2, 2, 1 / 10000000] = some 0 ∧
    specLimitCount (routhMatrix [1, 1, 2, 2, 1 / 10000000]) = 2 := by
  norm_num [unstableCountOf, build, routhMatrix, fillAux, nextRow, computeRow, rowEntry,
    auxRow, row0, row1, evens, odds, cols, rfDiv, rfMul, rfSub, rfAdd, rfNeg, rfZero,
    rfOfRat, epsRF, rfIsZero, rfEval, Poly.add, Poly.mul, Poly.neg, Poly.isZero,
    Poly.evalAt, firstColEval, signsList, signChanges, ratSign, epsVal, List.range_succ,
    Except.toOption, Option.map, lowCoeff, specLimitSign, specLimitCount]

/-- C3 corrected: the returned `unstableCount` takes the first entry of
every row, substitutes the fixed value `10⁻⁶` for the placeholder ε
(rather than the one-sided limit, which in the source is applied only
after ε is already gone), drops the entries that evaluate to exactly zero,
and counts adjacent positions where consecutive signs differ. -/
theorem routh_c3 (cs : List ℚ) (h : 2 ≤ cs.length) :
    unstableCountOf cs =
      some (signChanges ((((routhMatrix cs).map
        (fun r => rfEval epsVal (r.headD rfZero))).filter
          (fun x => x ≠ 0)).map ratSign)) := by
  rw [unstableCountOf, build, if_neg (by omega)]
  rfl

/-- Witness for C3 at `cs = [1, 2, 3, 4, 5]` (count 2, matching §8). -/
theorem routh_c3_w :
    unstableCountOf [1, 2, 3, 4, 5] =
      some (signChanges ((((routhMatrix [1, 2, 3, 4, 5]).map
        (fun r => rfEval epsVal (r.headD rfZero))).filter
          (fun x => x ≠ 0)).map ratSign)) :=
  routh_c3 [1, 2, 3, 4, 5] (by norm_num)

/-- Counterexample for C1 as stated: for `[1, 1, 1, 1]` — the polynomial
`(s+1)(s²+1)`, with a simple (non-repeated) pair of imaginary-axis roots
resolved by the auxiliary-polynomial rule — the code returns
`unstableCount = 0`, yet `i` is a root with real part 0, so not all roots
lie in the open left half-plane: the claimed equivalence fails. -/
theorem routh_c1_cex :
    unstableCountOf [1, 1, 1, 1] = some 0 ∧
    polyEvalC [1, 1, 1, 1] Complex.I = 0 ∧
    ¬ (Complex.I.re < 0) := by
  refine ⟨?_, ?_, ?_⟩
  · norm_num [unstableCountOf, build, routhMatrix, fillAux, nextRow, computeRow, rowEntry,
      auxRow, row0, row1, evens, odds, cols, rfDiv, rfMul, rfSub, rfAdd, rfNeg, rfZero,
      rfOfRat, epsRF, rfIsZero, rfEval, Poly.add, Poly.mul, Poly.neg, Poly.isZero,
      Poly.evalAt, firstColEval, signsList, signChanges, ratSign, epsVal, List.range_succ,
      Except.toOption, Option.map]
  · simp only [polyEvalC, List.foldl_cons, List.foldl_nil, Rat.cast_one]
    linear_combination (Complex.I + 1) * Complex.I_sq
  · simp

/-- C1 corrected (established at the separating input): `unstableCount`
still equals the number of roots of positive real part for `[1, 1, 1, 1]`
(both are 0), but `unstableCount = 0` does not imply that all roots lie in
the open left half-plane — simple imaginary-axis roots, resolved by the
auxiliary-polynomial rule, also yield a count of 0 and sit on the
boundary.  Count 0 certifies at most the absence of open-right-half-plane
roots, not open-left-half-plane stability. -/
theorem routh_c1 :
    unstableCountOf [1, 1, 1, 1] = some 0 ∧
    (∀ z : ℂ, polyEvalC [1, 1, 1, 1] z = 0 → ¬ (0 < z.re)) ∧
    polyEvalC [1, 1, 1, 1] Complex.I = 0 ∧ Complex.I.re = 0 := by
  refine ⟨?_, ?_, ?_, Complex.I_re⟩
  · norm_num [unstableCountOf, build, routhMatrix, fillAux, nextRow, computeRow, rowEntry,
      auxRow, row0, row1, evens, odds, cols, rfDiv, rfMul, rfSub, rfAdd, rfNeg, rfZero,
      rfOfRat, epsRF, rfIsZero, rfEval, Poly.add, Poly.mul, Poly.neg, Poly.isZero,
      Poly.evalAt, firstColEval, signsList, signChanges, ratSign, epsVal, List.range_succ,
      Except.toOption, Option.map]
  · intro z hz
    have h3 : z ^ 3 + z ^ 2 + z + 1 = 0 := by
      simp only [polyEvalC, List.foldl_cons, List.foldl_nil, Rat.cast_one] at hz
      linear_combination hz
    have hfac : (z + 1) * (z ^ 2 + 1) = 0 := by linear_combination h3
    rcases mul_eq_zero.mp hfac with hz1 | hz2
    · have he : z = -1 := by linear_combination hz1
      rw [he]
      norm_num
    · have hIf : (z - Complex.I) * (z + Complex.I) = 0 := by
        linear_combination hz2 - Complex.I_sq
      rcases mul_eq_zero.mp hIf with he | he
      · have hzz : z = Complex.I := by linear_combination he
        rw [hzz]
        simp
      · have hzz : z = -Complex.I := by linear_combination he
        rw [hzz]
        simp
  · simp only [polyEvalC, List.foldl_cons, List.foldl_nil, Rat.cast_one]
    linear_combination (Complex.I + 1) * Complex.I_sq

end RouthHurwitz
